import Mathlib

/-!
Verification of the pallas-to-Triton lowering engine
(`jax_triton/pallas/lowering.py` and `jax_triton/pallas/primitives.py`).

The development shallowly embeds the data model and the operations of the
lowering engine:

* Triton IR tensors are modelled semantically as a shape together with an
  evaluation function from multi-indices to integer values (`Tensor`).
* The indexing data model (`Slice`, `NDIndexer`, `dslice`) is translated
  directly from `primitives.py`.
* The address computation `_compute_pointers_from_indices`, the grid
  flattening `_process_grid_to_3d_grid`, the jaxpr walker
  `lower_jaxpr_to_triton_ir`, the abstract-evaluation checks
  (`_swap_abstract_eval`, `_atomic_abstract_eval`) and the loop lowering
  rules are translated function by function.
-/

namespace PallasLowering

/-! ## Semantic model of Triton IR tensors

A Triton value is either a non-block scalar (shape `[]`) or a block tensor.
We model both as a shape plus an evaluation function on multi-indices.
Broadcasting follows the NumPy rule used by `triton.language.semantic`:
shapes are right-aligned, padded with 1s, and a size-1 axis broadcasts. -/

structure Tensor where
  shape : List Nat
  val : List Nat → Int

/-- Combine two axis extents under broadcasting (a size-1 axis yields). -/
def bcastDim (a b : Nat) : Nat := if a = 1 then b else if b = 1 then a else max a b

/-- Left-pad a shape with 1s to rank `r`. -/
def padOnes (r : Nat) (s : List Nat) : List Nat := List.replicate (r - s.length) 1 ++ s

/-- Broadcast two shapes together (right-aligned, NumPy style). -/
def bshape (s t : List Nat) : List Nat :=
  let r := max s.length t.length
  List.zipWith bcastDim (padOnes r s) (padOnes r t)

/-- Map an index of a broadcast result back into a tensor of shape `s`:
keep the trailing `s.length` coordinates, zeroing those on size-1 axes. -/
def bindex (s idx : List Nat) : List Nat :=
  List.zipWith (fun sz c => if sz = 1 then 0 else c) s (idx.drop (idx.length - s.length))

/-- A multi-index is valid for a shape when it has the same rank and every
coordinate is below the corresponding extent. -/
def validIdx (idx s : List Nat) : Bool :=
  idx.length = s.length && (List.zip idx s).all fun p => p.1 < p.2

def Tensor.binop (f : Int → Int → Int) (a b : Tensor) : Tensor :=
  ⟨bshape a.shape b.shape,
   fun idx => f (a.val (bindex a.shape idx)) (b.val (bindex b.shape idx))⟩

def Tensor.add (a b : Tensor) : Tensor := Tensor.binop (· + ·) a b

def Tensor.mul (a b : Tensor) : Tensor := Tensor.binop (· * ·) a b

/-- `tl.core._to_tensor` on a Python int: a non-block scalar. -/
def Tensor.scalar (i : Int) : Tensor := ⟨[], fun _ => i⟩

/-- `tensor.type.is_block()`: block values have nonempty shape. -/
def Tensor.isBlock (t : Tensor) : Bool := !t.shape.isEmpty

/-- `tl.arange(start, start + size)`: 1-D block of `size` consecutive values. -/
def Tensor.arange (start : Int) (size : Nat) : Tensor :=
  ⟨[size], fun idx => start + (idx.headD 0 : Nat)⟩

/-- `tl.semantic.expand_dims(t, d)`: insert a size-1 axis at position `d`. -/
def Tensor.expandDims (t : Tensor) (d : Nat) : Tensor :=
  ⟨t.shape.take d ++ 1 :: t.shape.drop d,
   fun idx => t.val (idx.take d ++ idx.drop (d + 1))⟩

/-- `tl.core.broadcast_to(t, s)`. -/
def Tensor.broadcastTo (t : Tensor) (s : List Nat) : Tensor :=
  ⟨s, fun idx => t.val (bindex t.shape idx)⟩

/-! ## The indexing data model (`primitives.py`) -/

/-- The `start` field of a `Slice`: either a static Python int or a dynamic
(traced / IR-level) scalar value. -/
inductive SliceStart where
  | static : Nat → SliceStart
  | dyn : Tensor → SliceStart

/-- `Slice(start, size)` from `primitives.py`: a bounded slice whose second
component is a length, not an exclusive endpoint. -/
structure Slice where
  start : SliceStart
  size : Nat

/-- One per-axis index expression of an `NDIndexer`: a full-range builtin
`slice(None)` marker, a bounded `Slice`, a static int (gather scalar), or an
array / IR tensor (gather term). -/
inductive IndexTerm where
  | full : IndexTerm
  | islice : Slice → IndexTerm
  | intIdx : Int → IndexTerm
  | arr : Tensor → IndexTerm

/-- Error raised by `dslice` on a non-static single argument. -/
inductive DsliceError where
  | nonStaticDslice : DsliceError
deriving DecidableEq

/-- `dslice(start, stop)` from `primitives.py`:
`dslice(None)` is the full-range marker; `dslice(k)` for static `k` is
`Slice(0, k)` (and a non-static single argument raises `ValueError`);
`dslice(start, stop)` is `Slice(start, stop)` with `stop` a length. -/
def dslice (start : Option SliceStart) (stop : Option Nat) :
    Except DsliceError IndexTerm :=
  match start with
  | none => .ok .full
  | some s =>
    match stop with
    | none =>
      match s with
      | .static k => .ok (.islice ⟨.static 0, k⟩)
      | .dyn _ => .error .nonStaticDslice
    | some stp => .ok (.islice ⟨s, stp⟩)

/-- `NDIndexer(indices, shape, int_indexer_shape)`. The `__post_init__`
arity check (`len(indices) == len(shape)`) is stated as `NDIndexer.wf`. -/
structure NDIndexer where
  indices : List IndexTerm
  shape : List Nat
  intIndexerShape : List Nat

def NDIndexer.wf (nd : NDIndexer) : Bool := nd.indices.length = nd.shape.length

/-- `NDIndexer.get_indexer_shape`: the int-indexer (gather) shape followed by
the sizes of the `Slice` instances in axis order.  (Terms that are not
`Slice` instances — gather terms and builtin slices — contribute nothing to
the trailing part.) -/
def NDIndexer.getIndexerShape (nd : NDIndexer) : List Nat :=
  nd.intIndexerShape ++
    (nd.indices.filterMap fun t =>
      match t with
      | .islice s => some s.size
      | _ => none)

/-! ## `jax._src.util.partition_list` / `merge_lists` -/

/-- `partition_list(bs, l)`: split `l` into (elements with flag `false`,
elements with flag `true`), preserving order. -/
def partitionList : List Bool → List α → List α × List α
  | true :: bs, x :: l =>
    let p := partitionList bs l
    (p.1, x :: p.2)
  | false :: bs, x :: l =>
    let p := partitionList bs l
    (x :: p.1, p.2)
  | _, _ => ([], [])

/-- `merge_lists(bs, l0, l1)`: interleave `l0` (at `false` flags) and `l1`
(at `true` flags). -/
def mergeLists : List Bool → List α → List α → List α
  | [], _, _ => []
  | true :: bs, l0, l1 =>
    match l1 with
    | y :: l1' => y :: mergeLists bs l0 l1'
    | [] => []
  | false :: bs, l0, l1 =>
    match l0 with
    | x :: l0' => x :: mergeLists bs l0' l1
    | [] => []

/-! ## Grid flattening (`_process_grid_to_3d_grid`) -/

/-- The reversed div/mod loop of `_process_grid_to_3d_grid`: starting from
`g0 = program_id(0)`, iterate over the leading extents from the last to the
first, emitting `g0 % s` for each axis and carrying `g0 // s`. -/
def recoverPrefix (g0 : Nat) : List Nat → Nat × List Nat
  | [] => (g0, [])
  | s :: rest =>
    let p := recoverPrefix g0 rest
    (p.1 / s, p.1 % s :: p.2)

/-- `_process_grid_to_3d_grid(builder, grid_spec)` with the physical program
ids supplied by `pid`: a grid of rank ≤ 3 is launched directly; otherwise the
leading axes are flattened into one physical axis of extent equal to their
product and the per-axis coordinates are recovered by repeated div/mod. -/
def processGridTo3dGrid (grid : List Nat) (pid : Nat → Nat) : List Nat × List Nat :=
  if grid.length ≤ 3 then
    (grid, (List.range grid.length).map pid)
  else
    let gridPrefix := grid.take (grid.length - 2)
    let gridSuffix := grid.drop (grid.length - 2)
    let totalAxisSize := gridPrefix.prod
    let newGrid := totalAxisSize :: gridSuffix
    let outIndices := (recoverPrefix (pid 0) gridPrefix).2
    (newGrid, outIndices ++ [pid 1, pid 2])

/-! ## Dtypes, abstract evaluation and atomics -/

/-- The JAX dtypes distinguished by the checks in `primitives.py`. -/
inductive DType where
  | float16 | float32 | float64 | bfloat16
  | boolean | int8 | int16 | int32 | int64
deriving DecidableEq

/-- `AtomicOpType` from `primitives.py`. -/
inductive AtomicOpType where
  | xchg | add | maxOp | minOp | andOp | orOp | xorOp
deriving DecidableEq

/-- The errors raised by the abstract-evaluation rules (`ValueError`s in the
source, carrying the offending data in their message). -/
inductive AbsError where
  | unsupportedAtomicType (kind : AtomicOpType) (dtype : DType)
  | shapeMismatch (refShape valShape : List Nat) (idx : NDIndexer)
  | dtypeMismatch (refDtype valDtype : DType)

/-- The state effect declared by an abstract-evaluation rule. -/
inductive StateEffectKind where
  | read | write | accum
deriving DecidableEq

/-- `_swap_abstract_eval(ref_aval, val_aval, idx_aval, ...)`: checks the
value's shape against the indexer-derived shape and the value's dtype against
the `Ref`'s dtype before returning the output aval and the write effect. -/
def swapAbstractEval (refShape : List Nat) (refDtype : DType)
    (valShape : List Nat) (valDtype : DType) (idx : NDIndexer) :
    Except AbsError (List Nat × DType × StateEffectKind) :=
  let expectedOutputShape := idx.getIndexerShape
  if expectedOutputShape ≠ valShape then
    .error (.shapeMismatch refShape valShape idx)
  else if refDtype ≠ valDtype then
    .error (.dtypeMismatch refDtype valDtype)
  else
    .ok (expectedOutputShape, refDtype, .write)

/-- `_atomic_abstract_eval`: rejects f16 refs for non-add atomics and
bool/int8/int16/bfloat16 refs for every atomic kind, then defers to
`_swap_abstract_eval`. -/
def atomicAbstractEval (refShape : List Nat) (refDtype : DType)
    (valShape : List Nat) (valDtype : DType) (idx : NDIndexer)
    (atomicType : AtomicOpType) :
    Except AbsError (List Nat × DType × StateEffectKind) :=
  if refDtype = .float16 ∧ atomicType ≠ .add then
    .error (.unsupportedAtomicType atomicType refDtype)
  else if refDtype = .boolean ∨ refDtype = .int8 ∨ refDtype = .int16 ∨
      refDtype = .bfloat16 then
    .error (.unsupportedAtomicType atomicType refDtype)
  else
    swapAbstractEval refShape refDtype valShape valDtype idx

/-- The Triton atomic instructions targeted by `_ATOMIC_OP_MAPPING`. -/
inductive AtomicInstr where
  | atomicXchg | atomicAdd | atomicMax | atomicMin
  | atomicAnd | atomicOr | atomicXor
deriving DecidableEq

/-- `_ATOMIC_OP_MAPPING` from `lowering.py` (total over the enum). -/
def atomicOpMapping : AtomicOpType → Option AtomicInstr
  | .xchg => some .atomicXchg
  | .add => some .atomicAdd
  | .maxOp => some .atomicMax
  | .minOp => some .atomicMin
  | .andOp => some .atomicAnd
  | .orOp => some .atomicOr
  | .xorOp => some .atomicXor

/-! ## The jaxpr walker (`lower_jaxpr_to_triton_ir`) -/

/-- A jaxpr atom: a variable or a literal. -/
inductive Atom where
  | var : Nat → Atom
  | lit : Int → Atom

/-- One jaxpr equation: a primitive kind, input atoms and output variables.
Parameters are folded into the rule bound to the kind. -/
structure Eqn where
  prim : String
  invars : List Atom
  outvars : List Nat

/-- A jaxpr: input variables, equations in dependency order, output atoms. -/
structure Jaxpr where
  invars : List Nat
  eqns : List Eqn
  outvars : List Atom

/-- Errors surfaced by the walker.  An unregistered primitive raises
`NotImplementedError(eqn.primitive)` in the source, the abstract
`UnsupportedOperation(kind)` of the spec; reading an unbound variable is a
`KeyError`; a rule may itself fail. -/
inductive LoweringError where
  | unsupportedOperation (kind : String)
  | envError (v : Nat)
  | arityMismatch
  | ruleError (msg : String)
deriving DecidableEq

/-- A lowering rule specialized to its equation parameters: consumes the
lowered input values, produces the lowered outputs (or fails). -/
def Rule := List Int → Except LoweringError (List Int)

/-- The value environment threaded by the walker. -/
def Env := List (Nat × Int)

def Env.lookup (env : Env) (v : Nat) : Option Int :=
  match env with
  | [] => none
  | (w, x) :: rest => if w = v then some x else Env.lookup rest v

def Env.write (env : Env) (v : Nat) (x : Int) : Env := (v, x) :: env

/-- `read_env`: literals are materialized on demand, variables are looked up. -/
def readEnv (env : Env) : Atom → Except LoweringError Int
  | .lit i => .ok i
  | .var v =>
    match env.lookup v with
    | some x => .ok x
    | none => .error (.envError v)

def readAtoms (env : Env) : List Atom → Except LoweringError (List Int)
  | [] => .ok []
  | a :: rest =>
    match readEnv env a with
    | .error err => .error err
    | .ok x =>
      match readAtoms env rest with
      | .error err => .error err
      | .ok xs => .ok (x :: xs)

/-- Bind each output variable of an equation to a result value. -/
def writeResults (env : Env) : List Nat → List Int → Except LoweringError Env
  | [], [] => .ok env
  | v :: vs, x :: xs => writeResults (env.write v x) vs xs
  | _, _ => .error .arityMismatch

/-- The per-equation loop of `lower_jaxpr_to_triton_ir`: for each equation in
order, read the input values (literals converted on demand), fail with the
unsupported-operation error if the primitive has no registered rule, else
dispatch to the rule and bind its results. -/
def lowerEqns (rules : String → Option Rule) : List Eqn → Env → Except LoweringError Env
  | [], env => .ok env
  | e :: rest, env =>
    match readAtoms env e.invars with
    | .error err => .error err
    | .ok invals =>
      match rules e.prim with
      | none => .error (.unsupportedOperation e.prim)
      | some rule =>
        match rule invals with
        | .error err => .error err
        | .ok outvals =>
          match writeResults env e.outvars outvals with
          | .error err => .error err
          | .ok env' => lowerEqns rules rest env'

/-- `map(write_env, jaxpr.invars, args)`: the initial environment binding
each input variable to its argument value. -/
def initEnv (jaxpr : Jaxpr) (args : List Int) : Env :=
  (jaxpr.invars.zip args).foldl (fun e p => e.write p.1 p.2) []

/-- `lower_jaxpr_to_triton_ir(ctx, jaxpr, block_infos, *args)`: bind the
input variables to the argument values, walk the equations, and read the
declared outputs from the final environment. -/
def lowerJaxprToTritonIr (rules : String → Option Rule) (jaxpr : Jaxpr)
    (args : List Int) : Except LoweringError (List Int) :=
  if jaxpr.invars.length ≠ args.length then
    .error .arityMismatch
  else
    match lowerEqns rules jaxpr.eqns (initEnv jaxpr args) with
    | .error err => .error err
    | .ok env => readAtoms env jaxpr.outvars

/-! ## Loop lowering (`_is_read_only`, `_for_lowering_rule`,
`_while_lowering_rule`) -/

/-- The set of state effects a loop body declares on one of its references
(at most one `ReadEffect`, `WriteEffect` and `AccumEffect` each). -/
structure EffectSet where
  reads : Bool
  writes : Bool
  accums : Bool
deriving DecidableEq

def EffectSet.card (e : EffectSet) : Nat :=
  (if e.reads then 1 else 0) + (if e.writes then 1 else 0) +
    (if e.accums then 1 else 0)

/-- `_is_read_only(ref_effects)`: an empty effect set is read-only, more than
one effect means a write or accumulate is present, and a singleton is
read-only exactly when it is the read effect. -/
def isReadOnly (e : EffectSet) : Bool :=
  if e.card = 0 then true
  else if e.card > 1 then false
  else e.reads

/-- One argument of a `for` equation as seen by `_for_lowering_rule`: its
lowered IR value, whether its aval is a `ShapedArrayRef` (a Triton pointer,
not discharged), and the state effects the body declares on the
corresponding body reference. -/
structure ForArg where
  value : Int
  isRef : Bool
  effects : EffectSet

/-- `should_discharge`: non-pointer arguments have their state discharged. -/
def shouldDischargeList (args : List ForArg) : List Bool :=
  args.map fun a => !a.isRef

/-- `read_only = map(_is_read_only, state_effects)`. -/
def readOnlyList (args : List ForArg) : List Bool :=
  args.map fun a => isReadOnly a.effects

/-- `is_loop_arg = map(and_, map(not_, read_only), should_discharge)`:
an argument is threaded as a loop-carried value exactly when it is not
read-only and it is discharged (not a pointer). -/
def isLoopArgList (args : List ForArg) : List Bool :=
  List.zipWith (fun ro sd => !ro && sd) (readOnlyList args) (shouldDischargeList args)

/-- Whether the body declares a write or accumulate effect on the argument's
reference. -/
def hasWriteOrAccum (a : ForArg) : Bool := a.effects.writes || a.effects.accums

/-- Builder calls emitted by the loop lowering rules, in emission order. -/
inductive Instr where
  | toTensor (i : Int)
  | toIndex
  | forOp (lb ub step : Int) (iterArgs : List Int)
  | block
  | indexToSi
  | yieldOp (vals : List Int)
  | mergeBlock
  deriving DecidableEq

inductive LoopError where
  | notImplemented
deriving DecidableEq

/-- `_for_lowering_rule`.  `bodyOut` stands for the results of the recursive
walk over the discharged body jaxpr and `forResults` for the IR result values
of the emitted `for` op (one per carried argument); both are produced by the
builder and are opaque to the partition logic.  Returns the list of emitted
builder calls together with the rule's results. -/
def forLoweringRule (reverse : Bool) (unroll : Int) (nsteps : Nat)
    (args : List ForArg) (bodyOut : List Int) (forResults : List Int) :
    List Instr × Except LoopError (List Int) :=
  if reverse || unroll ≠ 1 then ([], .error .notImplemented)
  else
    let initArgs := args.map (·.value)
    let shouldDischarge := shouldDischargeList args
    let isLoopArg := isLoopArgList args
    let ptrs := (partitionList shouldDischarge initArgs).1
    let p := partitionList isLoopArg initArgs
    let nonLoopArgs := p.1
    let loopArgs := p.2
    let allOut := mergeLists shouldDischarge ptrs bodyOut
    let loopOut := (partitionList isLoopArg allOut).2
    let forOut := ((forResults.zip loopArgs).map Prod.fst)
    let emitted :=
      [Instr.toTensor 0, Instr.toTensor nsteps, Instr.toTensor 1,
       Instr.toIndex, Instr.toIndex, Instr.toIndex,
       Instr.forOp 0 nsteps 1 loopArgs, Instr.block, Instr.indexToSi] ++
      (if loopOut ≠ [] then [Instr.yieldOp loopOut] else []) ++
      [Instr.mergeBlock]
    (emitted, .ok (mergeLists isLoopArg nonLoopArgs forOut))

/-- `_while_lowering_rule` raises `NotImplementedError` as its first
statement; everything after the raise is dead code, so no IR is emitted. -/
def whileLoweringRule (_condNconsts _bodyNconsts : Nat) (_args : List Int) :
    List Instr × Except LoopError (List Int) :=
  ([], .error .notImplemented)

/-! ## Pytree flattening of `Slice` and `NDIndexer` -/

/-- A pytree leaf of a flattened indexer: a Python int, an array / tracer
(which is also what a dynamic `Slice` start flattens to), or a builtin
`slice(None)` object (unregistered with the pytree registry, hence a leaf). -/
inductive Leaf where
  | intLeaf : Int → Leaf
  | arrLeaf : Tensor → Leaf
  | fullLeaf : Leaf

/-- The static data of `Slice.tree_flatten`: `(True, start, size)` for a
static start, `(False, size)` for a dynamic one. -/
inductive SliceAux where
  | staticData : Nat → Nat → SliceAux
  | dynData : Nat → SliceAux

def Slice.treeFlatten : Slice → List Leaf × SliceAux
  | ⟨.static st, sz⟩ => ([], .staticData st sz)
  | ⟨.dyn t, sz⟩ => ([.arrLeaf t], .dynData sz)

/-- `Slice.tree_unflatten(data, xs)`: a static slice is rebuilt from its
data alone; a dynamic one takes `xs[0]` as its start (an int leaf yields a
static start, exactly as `Slice(xs[0], data[1])` would). -/
def Slice.treeUnflatten : SliceAux → List Leaf → Option Slice
  | .staticData st sz, _ => some ⟨.static st, sz⟩
  | .dynData sz, [.arrLeaf t] => some ⟨.dyn t, sz⟩
  | .dynData sz, [.intLeaf i] => some ⟨.static i.toNat, sz⟩
  | .dynData _, _ => none

/-- The per-element structure of the flattened non-slice index list: a
`Slice` node with its static data, or a bare pytree leaf. -/
inductive TermDef where
  | sliceDef : SliceAux → TermDef
  | leafDef : TermDef

/-- `tree_flatten(non_slice_idx)`: concatenate the leaves of each element
and record the per-element structure. -/
def flattenTerms : List IndexTerm → List Leaf × List TermDef
  | [] => ([], [])
  | t :: rest =>
    let r := flattenTerms rest
    match t with
    | .islice s =>
      let f := Slice.treeFlatten s
      (f.1 ++ r.1, .sliceDef f.2 :: r.2)
    | .intIdx i => (.intLeaf i :: r.1, .leafDef :: r.2)
    | .arr a => (.arrLeaf a :: r.1, .leafDef :: r.2)
    | .full => (.fullLeaf :: r.1, .leafDef :: r.2)

def leafToTerm : Leaf → IndexTerm
  | .intLeaf i => .intIdx i
  | .arrLeaf t => .arr t
  | .fullLeaf => .full

/-- `tree_unflatten(idx_tree, flat_idx)`: rebuild the non-slice index list,
consuming one leaf per bare leaf or dynamic slice start and none for a
static slice. -/
def unflattenTerms : List TermDef → List Leaf → Option (List IndexTerm)
  | [], [] => some []
  | [], _ :: _ => none
  | .sliceDef (.staticData st sz) :: ds, leaves => do
    let rest ← unflattenTerms ds leaves
    some (.islice ⟨.static st, sz⟩ :: rest)
  | .sliceDef (.dynData sz) :: ds, lf :: leaves => do
    let s ← Slice.treeUnflatten (.dynData sz) [lf]
    let rest ← unflattenTerms ds leaves
    some (.islice s :: rest)
  | .sliceDef (.dynData _) :: _, [] => none
  | .leafDef :: ds, lf :: leaves => do
    let rest ← unflattenTerms ds leaves
    some (leafToTerm lf :: rest)
  | .leafDef :: _, [] => none

/-- `indexed_dims = [not isinstance(idx, slice) for idx in self.indices]`:
every term except a builtin `slice(None)` counts as indexed. -/
def isIndexedDim : IndexTerm → Bool
  | .full => false
  | _ => true

/-- The static data of `NDIndexer.tree_flatten`. -/
structure NDAux where
  sliceIdx : List IndexTerm
  idxTree : List TermDef
  indexedDims : List Bool
  shape : List Nat
  intIndexerShape : List Nat

/-- `NDIndexer.tree_flatten`: partition the indices into builtin slices and
the rest, flatten the rest, and record everything else as static data. -/
def NDIndexer.treeFlatten (nd : NDIndexer) : List Leaf × NDAux :=
  let indexedDims := nd.indices.map isIndexedDim
  let p := partitionList indexedDims nd.indices
  let f := flattenTerms p.2
  (f.1, ⟨p.1, f.2, indexedDims, nd.shape, nd.intIndexerShape⟩)

/-- `NDIndexer.tree_unflatten(data, flat_idx)`: unflatten the non-slice
terms, merge them back with the stored builtin slices, and rebuild the
indexer (whose constructor re-checks the arity invariant). -/
def NDIndexer.treeUnflatten (aux : NDAux) (flat : List Leaf) : Option NDIndexer :=
  match unflattenTerms aux.idxTree flat with
  | none => none
  | some nonSliceIdx =>
    let indices := mergeLists aux.indexedDims aux.sliceIdx nonSliceIdx
    if indices.length = aux.shape.length then
      some ⟨indices, aux.shape, aux.intIndexerShape⟩
    else none

/-! ## Address computation (`_compute_pointers_from_indices`) -/

/-- The evaluated `BlockInfo` of an operand: full shape, per-axis start
offsets (scalar IR values), and the block shape with `none` encoding the
`pallas_core.mapped` sentinel. -/
structure BlockInfo where
  fullShape : List Nat
  startIndices : List Int
  blockShape : List (Option Nat)

/-- Modelled from the spec: `jt.strides_from_shape` is defined outside the
two source files; per the spec the address engine uses "row-major strides
computed from `full_shape`", so the stride of an axis is the product of the
extents after it. -/
def stridesFromShape : List Nat → List Nat
  | [] => []
  | _ :: rest => rest.prod :: stridesFromShape rest

/-- Iterated `expand_dims` at position 0 (`num_left_expand_dims`). -/
def expandLeft : Nat → Tensor → Tensor
  | 0, t => t
  | n + 1, t => expandLeft n (t.expandDims 0)

/-- Iterated `expand_dims` at the current rank (`num_right_expand_dims`). -/
def expandRight : Nat → Tensor → Tensor
  | 0, t => t
  | n + 1, t => expandRight n (t.expandDims t.shape.length)

/-- The tail of each loop iteration of `_compute_pointers_from_indices`:
a non-block offset is broadcast to a rank-matching shape of 1s (when the
output is not 0-d), a block offset gets its broadcastable axes from
`expand_dims`; then the block start offset (if any) is added and the result
is scaled by the axis stride. -/
def finishTerm (isz : List Nat) (pdo : Tensor) (nL nR : Nat)
    (startOffset : Option Int) (stride : Nat) : Tensor :=
  let p1 := if !pdo.isBlock && !isz.isEmpty then
      pdo.broadcastTo (List.replicate isz.length 1)
    else expandRight nR (expandLeft nL pdo)
  let p2 := match startOffset with
    | some so => p1.add (Tensor.scalar so)
    | none => p1
  p2.mul (Tensor.scalar (stride : Int))

/-- The per-axis loop of `_compute_pointers_from_indices`: walk the strides,
block shape and start offsets in parallel; a mapped axis contributes a
constant 0 without consuming an indexer term, a `Slice` contributes
`arange(start, start + size)`, a builtin full slice contributes
`arange(0, dim_block_size)` (both advancing `other_shape_idx`), and a gather
term contributes its own value. -/
def ptrLoop (isz : List Nat) (iL oL : Nat) :
    List Nat → List (Option Nat) → List (Option Int) → List IndexTerm →
    Nat → List Tensor
  | stride :: strides, dimBlockSize :: dbs, startOffset :: sos, idxs, osIdx =>
    match dimBlockSize with
    | none =>
      let pdo := Tensor.scalar 0
      let nL := if pdo.isBlock then 0 else max (isz.length - 1) 0
      finishTerm isz pdo nL oL startOffset stride ::
        ptrLoop isz iL oL strides dbs sos idxs osIdx
    | some db =>
      match idxs with
      | [] => []
      | idx :: idxs' =>
        match idx with
        | .islice s =>
          let pdo := match s.start with
            | .static st => Tensor.arange st s.size
            | .dyn t => t.add (Tensor.arange 0 s.size)
          finishTerm isz pdo (iL + osIdx) (oL - osIdx - 1) startOffset stride ::
            ptrLoop isz iL oL strides dbs sos idxs' (osIdx + 1)
        | .full =>
          finishTerm isz (Tensor.arange 0 db) (iL + osIdx) (oL - osIdx - 1)
              startOffset stride ::
            ptrLoop isz iL oL strides dbs sos idxs' (osIdx + 1)
        | .intIdx i =>
          let pdo := Tensor.scalar i
          let nL := if pdo.isBlock then 0 else max (isz.length - 1) 0
          finishTerm isz pdo nL oL startOffset stride ::
            ptrLoop isz iL oL strides dbs sos idxs' osIdx
        | .arr t =>
          let nL := if t.isBlock then 0 else max (isz.length - 1) 0
          finishTerm isz t nL oL startOffset stride ::
            ptrLoop isz iL oL strides dbs sos idxs' osIdx
  | _, _, _, _, _ => []

/-- The final per-term broadcast: a contribution whose shape differs from
the output indexer shape is broadcast to it. -/
def bcastFix (isz : List Nat) (t : Tensor) : Tensor :=
  if isz ≠ t.shape then t.broadcastTo isz else t

/-- `_compute_pointers_from_indices(root_ptr, block_info, nd_indexer,
array_shape, builder)`: per-axis scaled offsets, broadcast to the output
index-space and summed onto the base pointer. -/
def computePointersFromIndices (rootPtr : Int) (blockInfo : Option BlockInfo)
    (ndIndexer : NDIndexer) (arrayShape : List Nat) : Tensor :=
  let fullShape := match blockInfo with
    | none => arrayShape
    | some bi => bi.fullShape
  let blockShape : List (Option Nat) := match blockInfo with
    | none => arrayShape.map some
    | some bi => bi.blockShape
  let strides := stridesFromShape fullShape
  let indexerShape := ndIndexer.getIndexerShape
  let intIndexerShape := ndIndexer.intIndexerShape
  let indices := ndIndexer.indices
  let otherShape := indexerShape.drop intIndexerShape.length
  let startIndexOffsets : List (Option Int) := match blockInfo with
    | none => List.replicate indices.length none
    | some bi => bi.startIndices.map some
  let bcastIndices := ptrLoop indexerShape intIndexerShape.length
      otherShape.length strides blockShape startIndexOffsets indices 0
  let bcastIndices2 := bcastIndices.map (bcastFix indexerShape)
  bcastIndices2.foldl Tensor.add (Tensor.scalar rootPtr)

/-! ## Specification-side descriptions of the address computation -/

/-- The value of a slice start at lowering time. -/
def sliceStartInt : SliceStart → Int
  | .static n => n
  | .dyn t => t.val []

/-- The value a gather term contributes at gather coordinates `g`
(a scalar gather term is constant across the output). -/
def gatherVal (t : Tensor) (g : List Nat) : Int :=
  if t.shape.isEmpty then t.val [] else t.val g

/-- The sizes of the `Slice` terms of an indexer, in axis order. -/
def sliceSizes (idxs : List IndexTerm) : List Nat :=
  idxs.filterMap fun t =>
    match t with
    | .islice s => some s.size
    | _ => none

/-- The intended address offset: each gather axis contributes its value at
the leading (gather) output coordinates `g` times the axis stride; each
slice axis consumes the next trailing (slice) output coordinate `u` and
contributes `(start + coordinate) * stride`. -/
def addressSpec (g : List Nat) : List IndexTerm → List Nat → List Nat → Int
  | .islice s :: ts, stride :: strides, u =>
    (sliceStartInt s.start + ((u.headD 0 : Nat) : Int)) * stride +
      addressSpec g ts strides u.tail
  | .intIdx i :: ts, stride :: strides, u =>
    i * stride + addressSpec g ts strides u
  | .arr t :: ts, stride :: strides, u =>
    gatherVal t g * stride + addressSpec g ts strides u
  | .full :: ts, _stride :: strides, u => addressSpec g ts strides u
  | _, _, _ => 0

/-- Well-formedness of one lowering-time indexer term relative to the
common gather shape: slice starts are static ints or dynamic scalars, and a
gather array has the common broadcast gather shape (or is a scalar). -/
def wellFormedTerm (intShape : List Nat) : IndexTerm → Bool
  | .islice s =>
    match s.start with
    | .static _ => true
    | .dyn t => t.shape.isEmpty
  | .intIdx _ => true
  | .arr t => t.shape = intShape || t.shape.isEmpty
  | .full => false

def wellFormedTerms (intShape : List Nat) (idxs : List IndexTerm) : Bool :=
  idxs.all (wellFormedTerm intShape)

/-- An all-axes full-range indexer: the `Slice(0, dim)` form that a
`slice(None)` term takes once converted by `Slice.from_slice`. -/
def fullRangeIndexer (shape : List Nat) : NDIndexer :=
  ⟨shape.map (fun s => .islice ⟨.static 0, s⟩), shape, []⟩

/-- Row-major dot product of a multi-index with a stride vector. -/
def dotStrides (idx strides : List Nat) : Int :=
  ((idx.zip strides).map fun p => ((p.1 : Nat) : Int) * (p.2 : Nat)).sum

/-- Whether a term is a gather (integer scalar or array) term. -/
def isGatherTerm : IndexTerm → Bool
  | .intIdx _ => true
  | .arr _ => true
  | _ => false

/-- Whether a term is a bounded-slice term. -/
def isSliceTerm : IndexTerm → Bool
  | .islice _ => true
  | _ => false

/-! ## Helper lemmas -/

theorem validIdx_cons {c sz : Nat} {idx s : List Nat} :
    validIdx (c :: idx) (sz :: s) = true ↔ c < sz ∧ validIdx idx s = true := by
  simp only [validIdx, List.zip_cons_cons, List.all_cons, List.length_cons,
    Bool.and_eq_true, decide_eq_true_eq, Nat.succ_inj']
  tauto

theorem validIdx_length {idx s : List Nat} (h : validIdx idx s = true) :
    idx.length = s.length := by
  simp only [validIdx, Bool.and_eq_true, decide_eq_true_eq] at h
  exact h.1

theorem validIdx_append {g u a b : List Nat} (hg : validIdx g a = true)
    (hu : validIdx u b = true) : validIdx (g ++ u) (a ++ b) = true := by
  induction a generalizing g with
  | nil =>
    have := validIdx_length hg
    cases g with
    | nil => simpa using hu
    | cons _ _ => simp at this
  | cons sz a ih =>
    cases g with
    | nil => exact absurd (validIdx_length hg) (by simp)
    | cons c g =>
      rw [validIdx_cons] at hg
      simpa [validIdx_cons] using ⟨hg.1, ih hg.2⟩

/-- The div/mod recovery loop computes, for each leading axis, the flattened
program id divided by the product of the extents after that axis, reduced
modulo the axis extent. -/
theorem recoverPrefix_spec (g0 : Nat) :
    ∀ l : List Nat,
      (recoverPrefix g0 l).1 = g0 / l.prod ∧
      (recoverPrefix g0 l).2.length = l.length ∧
      ∀ i < l.length,
        (recoverPrefix g0 l).2.getD i 0 =
          g0 / (l.drop (i + 1)).prod % l.getD i 1 := by
  intro l
  induction l with
  | nil => simp [recoverPrefix]
  | cons s rest ih =>
    obtain ⟨h1, h2, h3⟩ := ih
    refine ⟨?_, by simp [recoverPrefix, h2], ?_⟩
    · simp only [recoverPrefix, h1, List.prod_cons]
      rw [Nat.div_div_eq_div_mul, Nat.mul_comm]
    · intro i hi
      cases i with
      | zero => simp [recoverPrefix, h1]
      | succ j =>
        simp only [recoverPrefix, List.getD_cons_succ, List.drop_succ_cons]
        exact h3 j (by simpa using hi)

/-! ## C10: `dslice` normalization -/

/-- C10: `dslice(None)` returns the full-range marker; `dslice(k)` for a
static integer `k` returns a slice with start 0 and size `k`, and raises an
error when the single argument is not a static integer; `dslice(start,
stop)` returns a slice whose start is the first argument and whose size is
the second argument taken verbatim as a length. -/
theorem dslice_normalization :
    (∀ stop, dslice none stop = .ok .full) ∧
    (∀ k : Nat, dslice (some (.static k)) none = .ok (.islice ⟨.static 0, k⟩)) ∧
    (∀ t : Tensor, dslice (some (.dyn t)) none = .error .nonStaticDslice) ∧
    (∀ (s : SliceStart) (stop : Nat),
      dslice (some s) (some stop) = .ok (.islice ⟨s, stop⟩)) := by
  refine ⟨fun stop => rfl, fun k => rfl, fun t => rfl, fun s stop => ?_⟩
  cases s <;> rfl

/-! ## C2: grid flattening -/

/-- The physical program ids (13, 2, 5) used by the spec's example. -/
def pidExample : Nat → Nat := fun i => if i = 0 then 13 else if i = 1 then 2 else 5

/-- C2 counterexample: for the declared grid (4, 5, 6, 7) at physical
coordinate (13, 2, 5) the recovered logical coordinates are (2, 3, 2, 5) —
axis 0 gets `13 // 5 % 4 = 2` — not (0, 3, 2, 5) as the claim states. -/
theorem processGrid_example_counterexample :
    (processGridTo3dGrid [4, 5, 6, 7] pidExample).2 = [2, 3, 2, 5] ∧
    (processGridTo3dGrid [4, 5, 6, 7] pidExample).2 ≠ [0, 3, 2, 5] := by
  constructor
  · rfl
  · intro h
    simp [processGridTo3dGrid, pidExample, recoverPrefix] at h

/-- C2 amended: a declared grid with more than 3 dimensions is flattened by
taking the product of the leading extents as the first physical axis, with
the trailing two axes mapped directly; the leading per-axis coordinates are
recovered by repeated div/mod against the leading extents (axis `i` gets
`pid0 / prod(later leading extents) % extent_i`), so grid (4, 5, 6, 7)
yields launch grid (20, 6, 7) and physical coordinate (13, 2, 5) recovers
logical coordinates (2, 3, 2, 5). -/
theorem processGrid_flatten (grid : List Nat) (pid : Nat → Nat)
    (h : 3 < grid.length) :
    processGridTo3dGrid grid pid =
      ((grid.take (grid.length - 2)).prod :: grid.drop (grid.length - 2),
        (recoverPrefix (pid 0) (grid.take (grid.length - 2))).2 ++
          [pid 1, pid 2]) ∧
    (∀ i < grid.length - 2,
      ((recoverPrefix (pid 0) (grid.take (grid.length - 2))).2).getD i 0 =
        pid 0 / ((grid.take (grid.length - 2)).drop (i + 1)).prod %
          (grid.take (grid.length - 2)).getD i 1) ∧
    processGridTo3dGrid [4, 5, 6, 7] pidExample = ([20, 6, 7], [2, 3, 2, 5]) := by
  refine ⟨?_, ?_, rfl⟩
  · simp [processGridTo3dGrid, Nat.not_le.mpr h]
  · intro i hi
    have hlen : (grid.take (grid.length - 2)).length = grid.length - 2 := by
      rw [List.length_take]
      omega
    exact (recoverPrefix_spec (pid 0) (grid.take (grid.length - 2))).2.2 i
      (by omega)

/-- Witness for `processGrid_flatten` at the concrete grid (4, 5, 6, 7) and
physical coordinate (13, 2, 5). -/
theorem processGrid_flatten_witness :
    processGridTo3dGrid [4, 5, 6, 7] pidExample = ([20, 6, 7], [2, 3, 2, 5]) :=
  (processGrid_flatten [4, 5, 6, 7] pidExample (by decide)).2.2

/-! ## C8: store/swap shape and dtype contract -/

/-- C8: for every store/swap operation, a mismatch between the value's shape
and the indexer-derived shape, or between the value's dtype and the `Ref`'s
dtype, makes `_swap_abstract_eval` fail with an error carrying the offending
shapes/dtypes — at the abstract-evaluation stage, before any IR is emitted
for the operation (the model's abstract evaluation emits no IR: it either
errors or returns the output aval). -/
theorem swapAbstractEval_mismatch (refShape valShape : List Nat)
    (refDtype valDtype : DType) (idx : NDIndexer) :
    (idx.getIndexerShape ≠ valShape →
      swapAbstractEval refShape refDtype valShape valDtype idx =
        .error (.shapeMismatch refShape valShape idx)) ∧
    (idx.getIndexerShape = valShape → refDtype ≠ valDtype →
      swapAbstractEval refShape refDtype valShape valDtype idx =
        .error (.dtypeMismatch refDtype valDtype)) := by
  constructor
  · intro h
    simp [swapAbstractEval, h]
  · intro h1 h2
    simp [swapAbstractEval, h1, h2]

/-- Witness for `swapAbstractEval_mismatch`: a full-range indexer of shape
[4] against a value of shape [3] fails with the shape error, and a matching
shape with a dtype mismatch fails with the dtype error. -/
theorem swapAbstractEval_mismatch_witness :
    swapAbstractEval [4] .float32 [3] .float32 (fullRangeIndexer [4]) =
      .error (.shapeMismatch [4] [3] (fullRangeIndexer [4])) ∧
    swapAbstractEval [4] .float32 [4] .int32 (fullRangeIndexer [4]) =
      .error (.dtypeMismatch .float32 .int32) :=
  ⟨(swapAbstractEval_mismatch [4] [3] .float32 .float32
      (fullRangeIndexer [4])).1 (by decide),
   (swapAbstractEval_mismatch [4] [4] .float32 .int32
      (fullRangeIndexer [4])).2 (by decide) (by decide)⟩

/-! ## C5: atomic element-type restrictions -/

/-- The op-selection step of `_atomic_lowering_rule`: an atomic kind absent
from `_ATOMIC_OP_MAPPING` raises, otherwise its Triton atomic instruction is
emitted. -/
def atomicLoweringOp (atomicType : AtomicOpType) : Except LoweringError AtomicInstr :=
  match atomicOpMapping atomicType with
  | none => .error (.ruleError "NotImplementedError")
  | some op => .ok op

/-- C5: atomic read-modify-write on an unsupported element type fails with
the unsupported-atomic-type error at the abstract-evaluation stage: atomic
add on int8 fails; bool, int16 and bfloat16 fail for every atomic kind;
float16 fails for every kind other than add; atomic add on float32 succeeds
and the lowering rule selects the add-variant atomic instruction. -/
theorem atomic_dtype_checks :
    (∀ (rs vs : List Nat) (vd : DType) (idx : NDIndexer),
      atomicAbstractEval rs .int8 vs vd idx .add =
        .error (.unsupportedAtomicType .add .int8)) ∧
    (∀ (rs vs : List Nat) (vd : DType) (idx : NDIndexer) (k : AtomicOpType),
      atomicAbstractEval rs .boolean vs vd idx k =
          .error (.unsupportedAtomicType k .boolean) ∧
      atomicAbstractEval rs .int16 vs vd idx k =
          .error (.unsupportedAtomicType k .int16) ∧
      atomicAbstractEval rs .bfloat16 vs vd idx k =
          .error (.unsupportedAtomicType k .bfloat16)) ∧
    (∀ (rs vs : List Nat) (vd : DType) (idx : NDIndexer) (k : AtomicOpType),
      k ≠ .add →
      atomicAbstractEval rs .float16 vs vd idx k =
        .error (.unsupportedAtomicType k .float16)) ∧
    (∀ (rs : List Nat) (idx : NDIndexer),
      atomicAbstractEval rs .float32 idx.getIndexerShape .float32 idx .add =
        .ok (idx.getIndexerShape, .float32, .write)) ∧
    atomicLoweringOp .add = .ok .atomicAdd := by
  refine ⟨fun rs vs vd idx => ?_, fun rs vs vd idx k => ?_,
    fun rs vs vd idx k hk => ?_, fun rs idx => ?_, rfl⟩
  · simp [atomicAbstractEval]
  · refine ⟨?_, ?_, ?_⟩ <;> cases k <;> simp [atomicAbstractEval]
  · cases k <;> simp_all [atomicAbstractEval]
  · simp [atomicAbstractEval, swapAbstractEval]

/-- Witness for `atomic_dtype_checks`: the non-add restriction on float16 at
the concrete kind `max`. -/
theorem atomic_dtype_checks_witness :
    atomicAbstractEval [1] .float16 [1] .float16 (fullRangeIndexer [1]) .maxOp =
      .error (.unsupportedAtomicType .maxOp .float16) :=
  atomic_dtype_checks.2.2.1 [1] [1] .float16 (fullRangeIndexer [1]) .maxOp
    (by decide)

/-! ## C7: unimplemented loop variants fail fast -/

/-- C7: every bounded for-loop lowering with reversed iteration or an unroll
factor other than one, and every while-loop lowering, fails with
`NotImplemented` before emitting any IR (the emitted-instruction list is
empty on the failing paths). -/
theorem loop_variants_not_implemented :
    (∀ (reverse : Bool) (unroll : Int) (nsteps : Nat) (args : List ForArg)
        (bodyOut forResults : List Int),
      reverse = true ∨ unroll ≠ 1 →
      forLoweringRule reverse unroll nsteps args bodyOut forResults =
        ([], .error .notImplemented)) ∧
    (∀ (cn bn : Nat) (args : List Int),
      whileLoweringRule cn bn args = ([], .error .notImplemented)) := by
  constructor
  · intro reverse unroll nsteps args bodyOut forResults h
    rcases h with h | h
    · simp [forLoweringRule, h]
    · simp [forLoweringRule, h]
  · intro cn bn args
    rfl

/-- Witness for `loop_variants_not_implemented`: a reversed loop and an
unrolled loop at concrete inputs. -/
theorem loop_variants_not_implemented_witness :
    forLoweringRule true 1 4 [] [] [] = ([], .error .notImplemented) ∧
    forLoweringRule false 2 4 [] [] [] = ([], .error .notImplemented) :=
  ⟨loop_variants_not_implemented.1 true 1 4 [] [] [] (Or.inl rfl),
   loop_variants_not_implemented.1 false 2 4 [] [] [] (Or.inr (by decide))⟩

/-! ## C3: unsupported operations abort the walker -/

/-- If the per-equation loop succeeds, every equation's primitive had a
registered rule. -/
theorem lowerEqns_ok_rules {rules : String → Option Rule} :
    ∀ {l : List Eqn} {env env' : Env},
      lowerEqns rules l env = .ok env' → ∀ e ∈ l, rules e.prim ≠ none := by
  intro l
  induction l with
  | nil => intro env env' _ e he; cases he
  | cons e0 rest ih =>
    intro env env' h e he
    rw [lowerEqns] at h
    split at h
    · cases h
    · split at h
      · cases h
      · rename_i rule hrule
        split at h
        · cases h
        · split at h
          · cases h
          · rcases List.mem_cons.mp he with he' | he'
            · subst he'
              rw [hrule]
              exact fun hc => Option.noConfusion hc
            · exact ih h e he'

/-- The per-equation loop over a concatenation runs the first part and, on
success, continues with the second from the resulting environment. -/
theorem lowerEqns_append (rules : String → Option Rule) :
    ∀ (l1 l2 : List Eqn) (env : Env),
      lowerEqns rules (l1 ++ l2) env =
        match lowerEqns rules l1 env with
        | .ok env' => lowerEqns rules l2 env'
        | .error err => .error err := by
  intro l1
  induction l1 with
  | nil => intro l2 env; rfl
  | cons e0 rest ih =>
    intro l2 env
    cases hr : readAtoms env e0.invars with
    | error err => simp [lowerEqns, hr]
    | ok invals =>
      cases hrule : rules e0.prim with
      | none => simp [lowerEqns, hr, hrule]
      | some rule =>
        cases hout : rule invals with
        | error err => simp [lowerEqns, hr, hrule, hout]
        | ok outvals =>
          cases hw : writeResults env e0.outvars outvals with
          | error err => simp [lowerEqns, hr, hrule, hout, hw]
          | ok env1 => simp [lowerEqns, hr, hrule, hout, hw, ih l2 env1]

/-- C3: a program containing an equation whose primitive has no registered
rule never produces result values; and once the equations before that
equation have lowered successfully (and its operands are readable), the walk
fails with the unsupported-operation error naming that exact primitive,
aborting the whole lowering. -/
theorem walker_unsupported_operation (rules : String → Option Rule)
    (jaxpr : Jaxpr) (args : List Int) (pre : List Eqn) (e : Eqn)
    (post : List Eqn) (hsplit : jaxpr.eqns = pre ++ e :: post)
    (hmiss : rules e.prim = none) :
    (∀ vs, lowerJaxprToTritonIr rules jaxpr args ≠ .ok vs) ∧
    (jaxpr.invars.length = args.length →
      ∀ env', lowerEqns rules pre (initEnv jaxpr args) = .ok env' →
      (∃ vals, readAtoms env' e.invars = .ok vals) →
      lowerJaxprToTritonIr rules jaxpr args =
        .error (.unsupportedOperation e.prim)) := by
  constructor
  · intro vs h
    rw [lowerJaxprToTritonIr] at h
    split at h
    · cases h
    · split at h
      · cases h
      · rename_i env hE
        have := lowerEqns_ok_rules hE e (by rw [hsplit]; simp)
        exact this hmiss
  · intro hlen env' hpre hread
    obtain ⟨vals, hvals⟩ := hread
    have hcond : ¬jaxpr.invars.length ≠ args.length := by omega
    simp only [lowerJaxprToTritonIr, if_neg hcond, hsplit,
      lowerEqns_append, hpre, lowerEqns, hvals, hmiss]

/-- Witness for `walker_unsupported_operation`: an empty rule table and a
one-equation program over the primitive "my_prim". -/
theorem walker_unsupported_operation_witness :
    lowerJaxprToTritonIr (fun _ => none)
        ⟨[], [⟨"my_prim", [], []⟩], []⟩ [] =
      .error (.unsupportedOperation "my_prim") :=
  (walker_unsupported_operation (fun _ => none)
      ⟨[], [⟨"my_prim", [], []⟩], []⟩ [] [] ⟨"my_prim", [], []⟩ [] rfl rfl).2
    rfl [] rfl ⟨[], rfl⟩

/-! ## C4: loop-carried value partition -/

/-- `_is_read_only` is false exactly when a write or accumulate effect is
present. -/
theorem not_isReadOnly (e : EffectSet) : (!isReadOnly e) = (e.writes || e.accums) := by
  rcases e with ⟨r, w, a⟩
  cases r <;> cases w <;> cases a <;> rfl

/-- The carried-argument flags: an argument is loop-carried exactly when its
body reference has a write or accumulate effect and the argument is not
itself a pointer (`ShapedArrayRef`). -/
theorem isLoopArgList_eq (args : List ForArg) :
    isLoopArgList args = args.map fun a => hasWriteOrAccum a && !a.isRef := by
  induction args with
  | nil => rfl
  | cons a rest ih =>
    show (!isReadOnly a.effects && !a.isRef) :: isLoopArgList rest = _
    rw [List.map_cons, not_isReadOnly, ih]
    rfl

theorem isLoopArgList_length (args : List ForArg) :
    (isLoopArgList args).length = args.length := by
  rw [isLoopArgList_eq, List.length_map]

/-- Merging the `false`-flagged part of a partition back in restores the
original elements at every `false` position, whatever list stands at the
`true` positions (provided it has the right length). -/
theorem mergeLists_partition_getD {α : Type} (d : α) :
    ∀ (bs : List Bool) (l x : List α),
      bs.length = l.length →
      x.length = (partitionList bs l).2.length →
      (mergeLists bs (partitionList bs l).1 x).length = l.length ∧
      ∀ i, i < l.length → bs.getD i false = false →
        (mergeLists bs (partitionList bs l).1 x).getD i d = l.getD i d := by
  intro bs
  induction bs with
  | nil =>
    intro l x hbl _
    cases l with
    | nil => exact ⟨rfl, fun i hi => absurd hi (by simp)⟩
    | cons a l' => simp at hbl
  | cons b bs ih =>
    intro l x hbl hx
    cases l with
    | nil => simp at hbl
    | cons a l' =>
      cases b with
      | false =>
        simp only [partitionList] at hx ⊢
        have hrec := ih l' x (by simpa using hbl) hx
        refine ⟨?_, ?_⟩
        · simpa [mergeLists] using hrec.1
        · intro i hi hb
          cases i with
          | zero => simp [mergeLists]
          | succ j =>
            simp only [List.getD_cons_succ] at hb
            simp only [mergeLists, List.getD_cons_succ]
            exact hrec.2 j (by simpa using hi) hb
      | true =>
        simp only [partitionList] at hx ⊢
        cases x with
        | nil => simp at hx
        | cons y x' =>
          have hrec := ih l' x' (by simpa using hbl) (by simpa using hx)
          refine ⟨?_, ?_⟩
          · simpa [mergeLists] using hrec.1
          · intro i hi hb
            cases i with
            | zero => simp at hb
            | succ j =>
              simp only [List.getD_cons_succ] at hb
              simp only [mergeLists, List.getD_cons_succ]
              exact hrec.2 j (by simpa using hi) hb

def writeOnlyEffects : EffectSet := ⟨false, true, false⟩

/-- A pointer-typed (`ShapedArrayRef`) argument whose body reference is
written. -/
def refWriteArg : ForArg := ⟨7, true, writeOnlyEffects⟩

/-- C4 counterexample: a pointer-typed reference with a write effect is NOT
threaded as a loop-carried value (it is captured by reference and mutated
through memory), so the carried set does not equal the set of references
with a write or accumulate effect: here the write-effect reference is
absent from the carried flags and its value passes through unchanged. -/
theorem forLowering_carried_counterexample :
    hasWriteOrAccum refWriteArg = true ∧
    isLoopArgList [refWriteArg] = [false] ∧
    (forLoweringRule false 1 5 [refWriteArg] [0] []).2 = .ok [7] :=
  ⟨rfl, rfl, rfl⟩

/-- C4 amended: for every bounded for-loop lowering, the references threaded
as loop-carried values are exactly those with a write or accumulate effect
in the loop body AND whose lowered argument is not itself a pointer
(`ShapedArrayRef`); read-only references (and pointer references) are
excluded from the carried list, their values are unchanged on loop exit, and
the outputs are reassembled in the original argument order. -/
theorem forLowering_carried_partition (args : List ForArg)
    (bodyOut forResults : List Int) (nsteps : Nat)
    (hres : forResults.length =
      (partitionList (isLoopArgList args) (args.map (·.value))).2.length) :
    isLoopArgList args = (args.map fun a => hasWriteOrAccum a && !a.isRef) ∧
    ∃ outs,
      (forLoweringRule false 1 nsteps args bodyOut forResults).2 = .ok outs ∧
      outs.length = args.length ∧
      ∀ i, i < args.length → (isLoopArgList args).getD i false = false →
        outs.getD i 0 = (args.getD i ⟨0, false, ⟨false, false, false⟩⟩).value := by
  refine ⟨isLoopArgList_eq args, ?_⟩
  have hforOut :
      ((forResults.zip
          (partitionList (isLoopArgList args) (args.map (·.value))).2).map
        Prod.fst).length =
        (partitionList (isLoopArgList args) (args.map (·.value))).2.length := by
    rw [List.length_map, List.length_zip, hres, Nat.min_self]
  have hmain := mergeLists_partition_getD (0 : Int) (isLoopArgList args)
    (args.map (·.value))
    ((forResults.zip
        (partitionList (isLoopArgList args) (args.map (·.value))).2).map
      Prod.fst)
    (by rw [isLoopArgList_length, List.length_map]) hforOut
  refine ⟨_, rfl, ?_, ?_⟩
  · rw [hmain.1, List.length_map]
  · intro i hi hb
    have := hmain.2 i (by rwa [List.length_map]) hb
    rw [this]
    rw [List.getD_eq_getElem?_getD, List.getD_eq_getElem?_getD,
      List.getElem?_map, List.getElem?_eq_getElem hi]
    rfl

/-- Witness for `forLowering_carried_partition`: one read-only reference
(unchanged, not carried) and one written non-pointer reference (carried). -/
theorem forLowering_carried_partition_witness :
    isLoopArgList [⟨3, false, ⟨true, false, false⟩⟩, ⟨4, false, ⟨true, true, false⟩⟩] =
      [false, true] ∧
    ∃ outs,
      (forLoweringRule false 1 2
          [⟨3, false, ⟨true, false, false⟩⟩, ⟨4, false, ⟨true, true, false⟩⟩]
          [30, 40] [99]).2 = .ok outs ∧
      outs.length = 2 ∧
      ∀ i, i < 2 →
        (isLoopArgList
            [⟨3, false, ⟨true, false, false⟩⟩,
             ⟨4, false, ⟨true, true, false⟩⟩]).getD i false = false →
        outs.getD i 0 =
          (([⟨3, false, ⟨true, false, false⟩⟩,
             ⟨4, false, ⟨true, true, false⟩⟩] : List ForArg).getD i
            ⟨0, false, ⟨false, false, false⟩⟩).value := by
  have h := forLowering_carried_partition
    [⟨3, false, ⟨true, false, false⟩⟩, ⟨4, false, ⟨true, true, false⟩⟩]
    [30, 40] [99] 2 (by rfl)
  exact ⟨h.1, h.2⟩

/-! ## C9: pytree round-trip -/

theorem slice_roundtrip (s : Slice) :
    Slice.treeUnflatten (Slice.treeFlatten s).2 (Slice.treeFlatten s).1 = some s := by
  rcases s with ⟨st, sz⟩
  cases st <;> rfl

theorem terms_roundtrip : ∀ l : List IndexTerm,
    unflattenTerms (flattenTerms l).2 (flattenTerms l).1 = some l := by
  intro l
  induction l with
  | nil => rfl
  | cons t rest ih =>
    cases t with
    | islice s =>
      rcases s with ⟨st, sz⟩
      cases st with
      | static n => simp [flattenTerms, Slice.treeFlatten, unflattenTerms, ih]
      | dyn a =>
        simp [flattenTerms, Slice.treeFlatten, unflattenTerms,
          Slice.treeUnflatten, ih]
    | intIdx i => simp [flattenTerms, unflattenTerms, leafToTerm, ih]
    | arr a => simp [flattenTerms, unflattenTerms, leafToTerm, ih]
    | full => simp [flattenTerms, unflattenTerms, leafToTerm, ih]

/-- Partitioning a list by a predicate on its own elements and merging the
two halves back restores the list. -/
theorem mergeLists_partition_map (p : α → Bool) :
    ∀ l : List α,
      mergeLists (l.map p) (partitionList (l.map p) l).1
        (partitionList (l.map p) l).2 = l := by
  intro l
  induction l with
  | nil => rfl
  | cons a rest ih =>
    cases hp : p a <;> simp [partitionList, mergeLists, hp, ih]

/-- C9: flattening a `Slice` or a well-formed `NDIndexer` to leaves plus
static data and unflattening reproduces an equal value — indices, shape and
`int_indexer_shape` are preserved, with dynamic slice starts restored at
their original axis positions. -/
theorem indexer_tree_roundtrip (s : Slice) (nd : NDIndexer) (h : nd.wf = true) :
    Slice.treeUnflatten (Slice.treeFlatten s).2 (Slice.treeFlatten s).1 =
      some s ∧
    NDIndexer.treeUnflatten (NDIndexer.treeFlatten nd).2
      (NDIndexer.treeFlatten nd).1 = some nd := by
  refine ⟨slice_roundtrip s, ?_⟩
  rcases nd with ⟨indices, shape, intShape⟩
  simp only [NDIndexer.wf, decide_eq_true_eq] at h
  have hterms := terms_roundtrip (partitionList (indices.map isIndexedDim) indices).2
  have hmerge := mergeLists_partition_map isIndexedDim indices
  simp only [NDIndexer.treeFlatten, NDIndexer.treeUnflatten, hterms,
    Option.some_bind]
  rw [hmerge]
  simp [h]

def sliceExample : Slice := ⟨.dyn (Tensor.scalar 3), 4⟩

def ndExample : NDIndexer :=
  ⟨[.arr (Tensor.scalar 2), .islice ⟨.static 0, 3⟩, .full], [5, 3, 2], []⟩

/-- Witness for `indexer_tree_roundtrip`: a dynamic-start slice and a mixed
gather/slice/full indexer. -/
theorem indexer_tree_roundtrip_witness :
    Slice.treeUnflatten (Slice.treeFlatten sliceExample).2
      (Slice.treeFlatten sliceExample).1 = some sliceExample ∧
    NDIndexer.treeUnflatten (NDIndexer.treeFlatten ndExample).2
      (NDIndexer.treeFlatten ndExample).1 = some ndExample :=
  indexer_tree_roundtrip sliceExample ndExample rfl

/-! ## Tensor lemmas for the address computation -/

theorem bcastDim_one_left (b : Nat) : bcastDim 1 b = b := by
  simp [bcastDim]

theorem bcastDim_one_right (a : Nat) : bcastDim a 1 = a := by
  rcases eq_or_ne a 1 with h | h <;> simp [bcastDim, h]

theorem bcastDim_self (a : Nat) : bcastDim a a = a := by
  rcases eq_or_ne a 1 with h | h <;> simp [bcastDim, h]

theorem zipWith_bcastDim_ones_right :
    ∀ s : List Nat, List.zipWith bcastDim s (List.replicate s.length 1) = s := by
  intro s
  induction s with
  | nil => rfl
  | cons a s ih => simp [List.replicate_succ, bcastDim_one_right, ih]

theorem zipWith_bcastDim_ones_left :
    ∀ s : List Nat, List.zipWith bcastDim (List.replicate s.length 1) s = s := by
  intro s
  induction s with
  | nil => rfl
  | cons a s ih => simp [List.replicate_succ, bcastDim_one_left, ih]

theorem zipWith_bcastDim_self :
    ∀ s : List Nat, List.zipWith bcastDim s s = s := by
  intro s
  induction s with
  | nil => rfl
  | cons a s ih => simp [bcastDim_self, ih]

theorem padOnes_self (s : List Nat) : padOnes s.length s = s := by
  simp [padOnes]

theorem bshape_nil_right (s : List Nat) : bshape s [] = s := by
  show List.zipWith bcastDim (padOnes (max s.length 0) s)
    (padOnes (max s.length 0) []) = s
  rw [Nat.max_zero]
  simp only [padOnes, Nat.sub_self, List.replicate_zero, List.nil_append,
    Nat.sub_zero, List.append_nil]
  exact zipWith_bcastDim_ones_right s

theorem bshape_nil_left (s : List Nat) : bshape [] s = s := by
  show List.zipWith bcastDim (padOnes (max 0 s.length) [])
    (padOnes (max 0 s.length) s) = s
  rw [Nat.zero_max]
  simp only [padOnes, Nat.sub_self, List.replicate_zero, List.nil_append,
    Nat.sub_zero, List.append_nil]
  exact zipWith_bcastDim_ones_left s

theorem bshape_self (s : List Nat) : bshape s s = s := by
  show List.zipWith bcastDim (padOnes (max s.length s.length) s)
    (padOnes (max s.length s.length) s) = s
  rw [Nat.max_self, padOnes_self]
  exact zipWith_bcastDim_self s

theorem zipWith_mask_valid :
    ∀ {s idx : List Nat}, validIdx idx s = true →
      List.zipWith (fun sz c => if sz = 1 then 0 else c) s idx = idx := by
  intro s
  induction s with
  | nil =>
    intro idx h
    have := validIdx_length h
    cases idx with
    | nil => rfl
    | cons _ _ => simp at this
  | cons sz s ih =>
    intro idx h
    cases idx with
    | nil => exact absurd (validIdx_length h) (by simp)
    | cons c idx =>
      rw [validIdx_cons] at h
      rcases eq_or_ne sz 1 with h1 | h1
      · have : c = 0 := by omega
        simp [h1, this, ih h.2]
      · simp [h1, ih h.2]

theorem bindex_valid {s idx : List Nat} (h : validIdx idx s = true) :
    bindex s idx = idx := by
  have hl := validIdx_length h
  rw [bindex, hl, Nat.sub_self, List.drop_zero]
  exact zipWith_mask_valid h

theorem bindex_nil (idx : List Nat) : bindex [] idx = [] := by
  simp [bindex]

theorem bindex_length {s idx : List Nat} (h : idx.length = s.length) :
    (bindex s idx).length = s.length := by
  simp [bindex, h]

theorem zipWith_mask_idem :
    ∀ (s l : List Nat),
      List.zipWith (fun sz c => if sz = 1 then 0 else c) s
        (List.zipWith (fun sz c => if sz = 1 then 0 else c) s l) =
      List.zipWith (fun sz c => if sz = 1 then 0 else c) s l := by
  intro s
  induction s with
  | nil => intro l; rfl
  | cons sz s ih =>
    intro l
    cases l with
    | nil => rfl
    | cons c l =>
      rcases eq_or_ne sz 1 with h1 | h1 <;> simp [h1, ih l]

theorem bindex_idem {s idx : List Nat} (h : idx.length = s.length) :
    bindex s (bindex s idx) = bindex s idx := by
  have hb := bindex_length h
  rw [bindex, hb, Nat.sub_self, List.drop_zero]
  conv_lhs =>
    rw [show bindex s idx =
      List.zipWith (fun sz c => if sz = 1 then 0 else c) s
        (idx.drop (idx.length - s.length)) from rfl]
  rw [zipWith_mask_idem]
  rfl

theorem zipWith_mask_ones :
    ∀ (l : List Nat),
      List.zipWith (fun sz c => if sz = 1 then 0 else c)
        (List.replicate l.length 1) l = List.replicate l.length 0 := by
  intro l
  induction l with
  | nil => rfl
  | cons c l ih => simp [List.replicate_succ, ih]

theorem expandLeft_shape :
    ∀ (n : Nat) (t : Tensor),
      (expandLeft n t).shape = List.replicate n 1 ++ t.shape := by
  intro n
  induction n with
  | zero => intro t; rfl
  | succ n ih =>
    intro t
    show (expandLeft n (t.expandDims 0)).shape = _
    rw [ih]
    show List.replicate n 1 ++ (1 :: t.shape) = _
    rw [List.replicate_succ' n 1, List.append_assoc]
    rfl

theorem expandLeft_val :
    ∀ (n : Nat) (t : Tensor) (idx : List Nat),
      (expandLeft n t).val idx = t.val (idx.drop n) := by
  intro n
  induction n with
  | zero => intro t idx; rfl
  | succ n ih =>
    intro t idx
    show (expandLeft n (t.expandDims 0)).val idx = _
    rw [ih]
    show t.val (((idx.drop n).take 0) ++ (idx.drop n).drop 1) = _
    rw [List.take_zero, List.nil_append, List.drop_drop, Nat.add_comm]

theorem expandDims_last_shape (t : Tensor) :
    (t.expandDims t.shape.length).shape = t.shape ++ [1] := by
  simp [Tensor.expandDims]

theorem expandRight_shape :
    ∀ (n : Nat) (t : Tensor),
      (expandRight n t).shape = t.shape ++ List.replicate n 1 := by
  intro n
  induction n with
  | zero => intro t; simp [expandRight]
  | succ n ih =>
    intro t
    show (expandRight n (t.expandDims t.shape.length)).shape = _
    rw [ih, expandDims_last_shape, List.append_assoc]
    rw [List.replicate_succ]
    rfl

theorem expandRight_val :
    ∀ (n : Nat) (t : Tensor) (idx : List Nat),
      idx.length = t.shape.length + n →
      (expandRight n t).val idx = t.val (idx.take t.shape.length) := by
  intro n
  induction n with
  | zero =>
    intro t idx h
    show t.val idx = _
    rw [List.take_of_length_le (by omega)]
  | succ n ih =>
    intro t idx h
    show (expandRight n (t.expandDims t.shape.length)).val idx = _
    have hlen : (t.expandDims t.shape.length).shape.length = t.shape.length + 1 := by
      rw [expandDims_last_shape]; simp
    rw [ih (t.expandDims t.shape.length) idx (by omega), hlen]
    show t.val ((idx.take (t.shape.length + 1)).take t.shape.length ++
      (idx.take (t.shape.length + 1)).drop (t.shape.length + 1)) = _
    rw [List.take_take, Nat.min_def, if_pos (by omega)]
    rw [List.drop_eq_nil_of_le (by simp), List.append_nil]

theorem bcastFix_shape (isz : List Nat) (t : Tensor) :
    (bcastFix isz t).shape = isz := by
  rw [bcastFix]
  split
  · rfl
  · rename_i h
    exact (not_ne_iff.mp h).symm

theorem mul_scalar_shape (A : Tensor) (v : Int) :
    (A.mul (Tensor.scalar v)).shape = A.shape := by
  show bshape A.shape [] = A.shape
  exact bshape_nil_right A.shape

theorem bcastFix_mul_scalar_val (isz : List Nat) (A : Tensor) (v : Int)
    (idx : List Nat) (hlen : idx.length = A.shape.length) :
    (bcastFix isz (A.mul (Tensor.scalar v))).val idx =
      A.val (bindex A.shape idx) * v := by
  rw [bcastFix]
  split
  · show (A.mul (Tensor.scalar v)).val
      (bindex (A.mul (Tensor.scalar v)).shape idx) = _
    rw [mul_scalar_shape]
    show A.val (bindex A.shape (bindex A.shape idx)) * v = _
    rw [bindex_idem hlen]
  · rfl

theorem foldl_add_val (isz : List Nat) (idx : List Nat)
    (hidx : validIdx idx isz = true) :
    ∀ (l : List Tensor), (∀ t ∈ l, t.shape = isz) →
    ∀ (acc : Tensor),
      (acc.shape = isz ∨ (acc.shape = [] ∧ ∀ z, acc.val z = acc.val [])) →
      (l.foldl Tensor.add acc).val idx =
        acc.val idx + (l.map fun t => t.val idx).sum := by
  intro l
  induction l with
  | nil => intro _ acc _; simp
  | cons t rest ih =>
    intro hall acc hacc
    have ht : t.shape = isz := hall t (by simp)
    have hrest : ∀ t' ∈ rest, t'.shape = isz := fun t' h' => hall t' (by simp [h'])
    have hshape : (acc.add t).shape = isz := by
      rcases hacc with h | ⟨h, _⟩
      · show bshape acc.shape t.shape = isz
        rw [h, ht, bshape_self]
      · show bshape acc.shape t.shape = isz
        rw [h, ht, bshape_nil_left]
    have hval : (acc.add t).val idx = acc.val idx + t.val idx := by
      rcases hacc with h | ⟨h1, h2⟩
      · show acc.val (bindex acc.shape idx) + t.val (bindex t.shape idx) = _
        rw [h, ht, bindex_valid hidx]
      · show acc.val (bindex acc.shape idx) + t.val (bindex t.shape idx) = _
        rw [h1, ht, bindex_nil, bindex_valid hidx, h2 idx]
    show ((rest.foldl Tensor.add (acc.add t)).val idx) = _
    rw [ih hrest (acc.add t) (Or.inl hshape), hval]
    simp [Int.add_assoc]

/-! ## Per-axis contribution lemmas -/

theorem bindex_eq_of_length {s idx : List Nat} (h : idx.length = s.length) :
    bindex s idx =
      List.zipWith (fun sz c => if sz = 1 then 0 else c) s idx := by
  rw [bindex, h, Nat.sub_self, List.drop_zero]

theorem mask_zip_compute (xs ys : List Nat) (sz c : Nat) (hc : c < sz) :
    List.zipWith (fun a b => if a = 1 then 0 else b)
      ((List.replicate xs.length 1 ++ [sz]) ++ List.replicate ys.length 1)
      ((xs ++ [c]) ++ ys) =
      (List.replicate xs.length 0 ++ [c]) ++ List.replicate ys.length 0 := by
  rw [List.zipWith_append _ _ _ _ _ (by simp)]
  rw [List.zipWith_append _ _ _ _ _ (by simp)]
  rw [zipWith_mask_ones xs, zipWith_mask_ones ys]
  rcases eq_or_ne sz 1 with h1 | h1
  · have hzero : c = 0 := by omega
    simp [h1, hzero]
  · simp [h1]

/-- The contribution of a slice axis (the `other_shape_idx`-th slice, with
`u1` the slice coordinates before it and `u2` those after it): the slice's
1-D offsets, expanded and broadcast, evaluate at the output index to the
offset at that axis's own trailing coordinate, scaled by the stride. -/
theorem finish_slice_val (intShape allSizes g u1 u2 : List Nat) (pdo : Tensor)
    (sz c stride : Nat) (hshape : pdo.shape = [sz]) (hc : c < sz)
    (hg : g.length = intShape.length)
    (hlen : u1.length + 1 + u2.length = allSizes.length) :
    (bcastFix (intShape ++ allSizes)
      (finishTerm (intShape ++ allSizes) pdo (intShape.length + u1.length)
        (allSizes.length - u1.length - 1) none stride)).val
      (g ++ (u1 ++ c :: u2)) = pdo.val [c] * stride := by
  set nL := intShape.length + u1.length with hnL
  set nR := allSizes.length - u1.length - 1 with hnR
  have hnLg : nL = (g ++ u1).length := by simp [hnL, hg]
  have hnR2 : nR = u2.length := by omega
  have hblock : pdo.isBlock = true := by
    simp [Tensor.isBlock, hshape]
  have hfin : finishTerm (intShape ++ allSizes) pdo nL nR none stride =
      (expandRight nR (expandLeft nL pdo)).mul (Tensor.scalar (stride : Int)) := by
    simp [finishTerm, hblock]
  rw [hfin]
  have hA : (expandRight nR (expandLeft nL pdo)).shape =
      (List.replicate nL 1 ++ [sz]) ++ List.replicate nR 1 := by
    rw [expandRight_shape, expandLeft_shape, hshape]
  have hAlen : (expandRight nR (expandLeft nL pdo)).shape.length = nL + 1 + nR := by
    rw [hA]; simp; omega
  rw [bcastFix_mul_scalar_val _ _ _ _ (by rw [hAlen]; simp; omega)]
  have hidx : g ++ (u1 ++ c :: u2) = (((g ++ u1) ++ [c]) ++ u2) := by simp
  have hbx : bindex (expandRight nR (expandLeft nL pdo)).shape
      (g ++ (u1 ++ c :: u2)) =
      (List.replicate nL 0 ++ [c]) ++ List.replicate nR 0 := by
    rw [bindex_eq_of_length (by rw [hAlen]; simp; omega)]
    rw [hA, hidx, hnLg, hnR2]
    exact mask_zip_compute (g ++ u1) u2 sz c hc
  rw [hbx]
  have hEL : (expandLeft nL pdo).shape.length = nL + 1 := by
    rw [expandLeft_shape, hshape]; simp
  rw [expandRight_val _ _ _ (by rw [hEL]; simp; omega)]
  rw [hEL]
  have htake : ((List.replicate nL 0 ++ [c]) ++ List.replicate nR 0).take (nL + 1) =
      List.replicate nL 0 ++ [c] := List.take_left' (by simp)
  rw [htake, expandLeft_val]
  have hdrop : (List.replicate nL 0 ++ [c]).drop nL = [c] :=
    List.drop_left' (by simp)
  rw [hdrop]

/-- The contribution of a block gather axis: the gather tensor, padded with
trailing broadcast axes, evaluates at the output index to its value at the
leading (gather) coordinates, scaled by the stride. -/
theorem finish_gather_block_val (intShape allSizes g u : List Nat) (t : Tensor)
    (stride : Nat) (hshape : t.shape = intShape) (hne : intShape ≠ [])
    (hg : validIdx g intShape = true) (hu : u.length = allSizes.length) :
    (bcastFix (intShape ++ allSizes)
      (finishTerm (intShape ++ allSizes) t
        (if t.isBlock then 0 else max ((intShape ++ allSizes).length - 1) 0)
        allSizes.length none stride)).val
      (g ++ u) = t.val g * stride := by
  have hglen : g.length = intShape.length := validIdx_length hg
  have hblock : t.isBlock = true := by
    cases hi : intShape with
    | nil => exact absurd hi hne
    | cons a r => simp [Tensor.isBlock, hshape, hi]
  have hfin : finishTerm (intShape ++ allSizes) t
      (if t.isBlock then 0 else max ((intShape ++ allSizes).length - 1) 0)
      allSizes.length none stride =
      (expandRight allSizes.length (expandLeft 0 t)).mul
        (Tensor.scalar (stride : Int)) := by
    simp [finishTerm, hblock]
  rw [hfin]
  have hA : (expandRight allSizes.length (expandLeft 0 t)).shape =
      intShape ++ List.replicate allSizes.length 1 := by
    rw [expandRight_shape, expandLeft_shape, hshape]
    simp
  have hAlen : (expandRight allSizes.length (expandLeft 0 t)).shape.length =
      intShape.length + allSizes.length := by
    rw [hA]; simp
  rw [bcastFix_mul_scalar_val _ _ _ _ (by rw [hAlen]; simp [hglen, hu])]
  have hbx : bindex (expandRight allSizes.length (expandLeft 0 t)).shape
      (g ++ u) = g ++ List.replicate u.length 0 := by
    rw [bindex_eq_of_length (by rw [hAlen]; simp [hglen, hu])]
    rw [hA]
    rw [List.zipWith_append _ _ _ _ _ (by omega)]
    rw [zipWith_mask_valid hg]
    rw [show allSizes.length = u.length by omega]
    rw [zipWith_mask_ones u]
  rw [hbx]
  rw [expandRight_val _ _ _
    (by rw [expandLeft_shape]; simp [hshape, hglen, hu])]
  rw [show (expandLeft 0 t).shape.length = g.length by
    rw [expandLeft_shape, hshape]; simp [hglen]]
  rw [List.take_left]
  rfl

/-- The contribution of a scalar (non-block) gather axis: a constant across
the whole output index-space, scaled by the stride. -/
theorem finish_gather_scalar_val (isz : List Nat) (t : Tensor) (nR stride : Nat)
    (idx : List Nat) (hshape : t.shape = [])
    (hlen : idx.length = isz.length) (hnr : isz = [] → nR = 0) :
    (bcastFix isz
      (finishTerm isz t (if t.isBlock then 0 else max (isz.length - 1) 0)
        nR none stride)).val idx = t.val [] * stride := by
  have hblock : t.isBlock = false := by
    simp [Tensor.isBlock, hshape]
  cases isz with
  | nil =>
    have hn : nR = 0 := hnr rfl
    subst hn
    have hidx : idx = [] := List.length_eq_zero.mp (by simpa using hlen)
    subst hidx
    have hfin : finishTerm [] t
        (if t.isBlock then 0 else max (([] : List Nat).length - 1) 0) 0
        none stride = t.mul (Tensor.scalar (stride : Int)) := by
      simp [finishTerm, hblock, expandRight, expandLeft]
    rw [hfin, bcastFix]
    rw [if_neg (by rw [mul_scalar_shape, hshape]; simp)]
    show t.val (bindex t.shape []) * (stride : Int) = _
    rw [hshape, bindex_nil]
  | cons a rest =>
    have hfin : finishTerm (a :: rest) t
        (if t.isBlock then 0 else max ((a :: rest).length - 1) 0) nR
          none stride =
        (t.broadcastTo (List.replicate (a :: rest).length 1)).mul
          (Tensor.scalar (stride : Int)) := by
      simp [finishTerm, hblock]
    rw [hfin]
    rw [bcastFix_mul_scalar_val _ _ _ _ (by simp [Tensor.broadcastTo, hlen])]
    show t.val (bindex t.shape _) * (stride : Int) = _
    rw [hshape, bindex_nil]

/-! ## The loop over axes computes the specified address offsets -/

theorem validIdx_getElem {idx s : List Nat} (h : validIdx idx s = true)
    (i : Nat) (h1 : i < idx.length) (h2 : i < s.length) : idx[i] < s[i] := by
  simp only [validIdx, Bool.and_eq_true, decide_eq_true_eq,
    List.all_eq_true] at h
  have hb : i < (idx.zip s).length := by
    rw [List.length_zip]
    omega
  have hmem : (idx[i], s[i]) ∈ idx.zip s := by
    have hz : (idx.zip s)[i] = (idx[i], s[i]) := List.getElem_zip
    rw [← hz]
    exact List.getElem_mem hb
  simpa using h.2 _ hmem

theorem sliceSizes_cons_slice (s : Slice) (rest : List IndexTerm) :
    sliceSizes (.islice s :: rest) = s.size :: sliceSizes rest := by
  simp [sliceSizes]

theorem sliceSizes_cons_other (t : IndexTerm) (rest : List IndexTerm)
    (h : isSliceTerm t = false) :
    sliceSizes (t :: rest) = sliceSizes rest := by
  cases t <;> simp_all [sliceSizes, isSliceTerm]

theorem ptrLoop_sum (intShape allSizes g ufixed : List Nat)
    (hg : validIdx g intShape = true)
    (hu : validIdx ufixed allSizes = true) :
    ∀ (idxs : List IndexTerm) (strides : List Nat) (dbs : List (Option Nat))
      (osIdx : Nat),
      wellFormedTerms intShape idxs = true →
      strides.length = idxs.length →
      dbs.length = idxs.length →
      (∀ d ∈ dbs, d ≠ none) →
      sliceSizes idxs = allSizes.drop osIdx →
      ((ptrLoop (intShape ++ allSizes) intShape.length allSizes.length
          strides dbs (List.replicate idxs.length none) idxs osIdx).map
        fun t => (bcastFix (intShape ++ allSizes) t).val (g ++ ufixed)).sum
        = addressSpec g idxs strides (ufixed.drop osIdx) := by
  have huf : ufixed.length = allSizes.length := validIdx_length hu
  have hglen : g.length = intShape.length := validIdx_length hg
  intro idxs
  induction idxs with
  | nil =>
    intro strides dbs osIdx _ hstr _ _ _
    cases strides with
    | nil => rfl
    | cons _ _ => simp at hstr
  | cons t rest ih =>
    intro strides dbs osIdx hwf hstr hdbs hdne hsizes
    cases strides with
    | nil => simp at hstr
    | cons stride strides' =>
    cases dbs with
    | nil => simp at hdbs
    | cons d dbs' =>
    have hd : d ≠ none := hdne d (by simp)
    cases d with
    | none => exact absurd rfl hd
    | some db =>
    have hdne' : ∀ x ∈ dbs', x ≠ none := fun x hx => hdne x (by simp [hx])
    have hstr' : strides'.length = rest.length := by simpa using hstr
    have hdbs' : dbs'.length = rest.length := by simpa using hdbs
    simp only [wellFormedTerms, List.all_cons, Bool.and_eq_true] at hwf
    have hwf' : wellFormedTerms intShape rest = true := hwf.2
    have hrep : List.replicate (t :: rest).length (none : Option Int) =
        none :: List.replicate rest.length none := by
      simp [List.replicate_succ]
    rw [hrep]
    cases t with
    | full => simp [wellFormedTerm] at hwf
    | islice s =>
      -- consume the slice coordinate at position osIdx
      rw [sliceSizes_cons_slice] at hsizes
      have hlt : osIdx < allSizes.length := by
        by_contra hcon
        rw [List.drop_eq_nil_of_le (by omega)] at hsizes
        cases hsizes
      have hdecomp : allSizes.drop osIdx =
          allSizes[osIdx] :: allSizes.drop (osIdx + 1) :=
        List.drop_eq_getElem_cons hlt
      rw [hdecomp] at hsizes
      obtain ⟨hs1, hs2⟩ := List.cons_eq_cons.mp hsizes
      have hltu : osIdx < ufixed.length := by omega
      have hudecomp : ufixed.drop osIdx =
          ufixed[osIdx] :: ufixed.drop (osIdx + 1) :=
        List.drop_eq_getElem_cons hltu
      have hc : ufixed[osIdx] < s.size := by
        rw [hs1]
        exact validIdx_getElem hu osIdx hltu hlt
      have hu1len : (ufixed.take osIdx).length = osIdx := by
        rw [List.length_take]; omega
      have hufix : ufixed =
          ufixed.take osIdx ++ (ufixed[osIdx] :: ufixed.drop (osIdx + 1)) := by
        conv_lhs => rw [← List.take_append_drop osIdx ufixed]
        rw [hudecomp]
      have hlen' : (ufixed.take osIdx).length + 1 +
          (ufixed.drop (osIdx + 1)).length = allSizes.length := by
        rw [hu1len, List.length_drop]; omega
      -- the per-term offsets for both start forms
      have hmain : ∀ pdo : Tensor, pdo.shape = [s.size] →
          (bcastFix (intShape ++ allSizes)
            (finishTerm (intShape ++ allSizes) pdo
              (intShape.length + osIdx) (allSizes.length - osIdx - 1) none
              stride)).val (g ++ ufixed) = pdo.val [ufixed[osIdx]] * stride := by
        intro pdo hpshape
        have h := finish_slice_val intShape allSizes g (ufixed.take osIdx)
          (ufixed.drop (osIdx + 1)) pdo s.size ufixed[osIdx] stride hpshape hc
          hglen hlen'
        rw [hu1len] at h
        rw [← hufix] at h
        exact h
      have hihx := ih strides' dbs' (osIdx + 1) hwf' hstr' hdbs' hdne' hs2
      cases hst : s.start with
      | static st =>
        simp only [ptrLoop, hst, List.map_cons, List.sum_cons]
        rw [hmain (Tensor.arange st s.size) rfl, hihx]
        rw [addressSpec, hudecomp, List.headD_cons, List.tail_cons, hst]
        rfl
      | dyn a =>
        have h1 := hwf.1
        simp only [wellFormedTerm, hst] at h1
        have hashape : a.shape = [] := List.isEmpty_iff.mp h1
        have hpshape : (a.add (Tensor.arange 0 s.size)).shape = [s.size] := by
          show bshape a.shape [s.size] = [s.size]
          rw [hashape, bshape_nil_left]
        have hpval : (a.add (Tensor.arange 0 s.size)).val [ufixed[osIdx]] =
            a.val [] + (ufixed[osIdx] : Int) := by
          show a.val (bindex a.shape [ufixed[osIdx]]) +
            (0 + ((bindex [s.size] [ufixed[osIdx]]).headD 0 : Nat) : Int) = _
          rw [hashape, bindex_nil]
          rw [bindex_eq_of_length (by simp)]
          rcases eq_or_ne s.size 1 with h1 | h1
          · have : ufixed[osIdx] = 0 := by omega
            simp [h1, this]
          · simp [h1]
        simp only [ptrLoop, hst, List.map_cons, List.sum_cons]
        rw [hmain (a.add (Tensor.arange 0 s.size)) hpshape, hihx]
        rw [addressSpec, hudecomp, List.headD_cons, List.tail_cons, hst]
        rw [hpval]
        rfl
    | intIdx i =>
      rw [sliceSizes_cons_other _ _ (by rfl)] at hsizes
      have hihx := ih strides' dbs' osIdx hwf' hstr' hdbs' hdne' hsizes
      have hsc := finish_gather_scalar_val (intShape ++ allSizes)
        (Tensor.scalar i) allSizes.length stride (g ++ ufixed) rfl
        (by simp [hglen, huf])
        (fun hnil => ((List.append_eq_nil.mp hnil).2 ▸ rfl : allSizes.length = 0))
      simp only [ptrLoop, List.map_cons, List.sum_cons]
      rw [hsc, hihx, addressSpec]
      rfl
    | arr a =>
      rw [sliceSizes_cons_other _ _ (by rfl)] at hsizes
      have hihx := ih strides' dbs' osIdx hwf' hstr' hdbs' hdne' hsizes
      have hwa : a.shape = intShape ∨ a.shape = [] := by
        have := hwf.1
        simp only [wellFormedTerm, Bool.or_eq_true, decide_eq_true_eq] at this
        rcases this with h | h
        · exact Or.inl h
        · exact Or.inr (List.isEmpty_iff.mp h)
      have hscalar : a.shape = [] →
          ((ptrLoop (intShape ++ allSizes) intShape.length allSizes.length
              (stride :: strides') (some db :: dbs')
              (none :: List.replicate rest.length none) (.arr a :: rest)
              osIdx).map
            fun t => (bcastFix (intShape ++ allSizes) t).val (g ++ ufixed)).sum
            = addressSpec g (.arr a :: rest) (stride :: strides')
                (ufixed.drop osIdx) := by
        intro hsh
        have hsc := finish_gather_scalar_val (intShape ++ allSizes) a
          allSizes.length stride (g ++ ufixed) hsh (by simp [hglen, huf])
          (fun hnil => ((List.append_eq_nil.mp hnil).2 ▸ rfl : allSizes.length = 0))
        simp only [ptrLoop, List.map_cons, List.sum_cons]
        rw [hsc, hihx, addressSpec]
        rw [gatherVal, if_pos (by simp [hsh])]
      rcases hwa with hsh | hsh
      · rcases eq_or_ne intShape [] with hni | hni
        · exact hscalar (by rw [hsh, hni])
        · have hbl := finish_gather_block_val intShape allSizes g ufixed a
            stride hsh hni hg huf
          simp only [ptrLoop, List.map_cons, List.sum_cons]
          rw [hbl, hihx, addressSpec]
          rw [gatherVal, if_neg (by simp [hsh, hni])]
      · exact hscalar hsh

/-! ## Address computation: main evaluation theorem -/

theorem stridesFromShape_length :
    ∀ s : List Nat, (stridesFromShape s).length = s.length := by
  intro s
  induction s with
  | nil => rfl
  | cons a rest ih => simp [stridesFromShape, ih]

/-- Evaluating `_compute_pointers_from_indices` with no block mapping: at
output index `g ++ u` (gather coordinates then slice coordinates) the
address is the base pointer plus the per-axis contributions described by
`addressSpec`. -/
theorem computePointers_val (base : Int) (shape : List Nat)
    (indices : List IndexTerm) (intShape g u : List Nat)
    (hwf : wellFormedTerms intShape indices = true)
    (hlen : indices.length = shape.length)
    (hg : validIdx g intShape = true)
    (hu : validIdx u (sliceSizes indices) = true) :
    (computePointersFromIndices base none ⟨indices, shape, intShape⟩ shape).val
      (g ++ u) = base + addressSpec g indices (stridesFromShape shape) u := by
  simp only [computePointersFromIndices]
  rw [show NDIndexer.getIndexerShape ⟨indices, shape, intShape⟩ =
    intShape ++ sliceSizes indices from rfl]
  rw [List.drop_left]
  rw [foldl_add_val (intShape ++ sliceSizes indices) (g ++ u)
    (validIdx_append hg hu) _
    (fun t ht => by
      obtain ⟨t', _, rfl⟩ := List.mem_map.mp ht
      exact bcastFix_shape _ _)
    (Tensor.scalar base) (Or.inr ⟨rfl, fun z => rfl⟩)]
  rw [List.map_map]
  have hsum := ptrLoop_sum intShape (sliceSizes indices) g u hg hu indices
    (stridesFromShape shape) (shape.map some) 0 hwf
    (by rw [stridesFromShape_length, hlen])
    (by simp [hlen])
    (fun d hd => by
      obtain ⟨x, _, rfl⟩ := List.mem_map.mp hd
      simp)
    (by rw [List.drop_zero])
  rw [show ((fun t => Tensor.val t (g ++ u)) ∘ bcastFix (intShape ++ sliceSizes indices)) =
    (fun t => (bcastFix (intShape ++ sliceSizes indices) t).val (g ++ u)) from rfl]
  rw [hsum, List.drop_zero]
  rfl

/-! ## C1: full-range accesses into an unblocked array -/

theorem sliceSizes_fullRange (shape : List Nat) :
    sliceSizes (shape.map fun s => .islice ⟨.static 0, s⟩) = shape := by
  induction shape with
  | nil => rfl
  | cons a rest ih =>
    show sliceSizes (.islice ⟨.static 0, a⟩ :: rest.map _) = a :: rest
    rw [sliceSizes_cons_slice, ih]

theorem wellFormedTerms_fullRange (shape : List Nat) :
    wellFormedTerms [] (shape.map fun s => .islice ⟨.static 0, s⟩) = true := by
  induction shape with
  | nil => rfl
  | cons a rest ih =>
    show wellFormedTerms [] (.islice ⟨.static 0, a⟩ :: rest.map _) = true
    simp only [wellFormedTerms, List.all_cons, Bool.and_eq_true]
    exact ⟨rfl, ih⟩

theorem addressSpec_fullRange :
    ∀ (shape strides u : List Nat),
      u.length = shape.length → strides.length = shape.length →
      addressSpec [] (shape.map fun s => .islice ⟨.static 0, s⟩) strides u =
        dotStrides u strides := by
  intro shape
  induction shape with
  | nil =>
    intro strides u hu _
    have h0 : u = [] := List.length_eq_zero.mp (by simpa using hu)
    subst h0
    simp [addressSpec, dotStrides]
  | cons a rest ih =>
    intro strides u hu hs
    cases u with
    | nil => simp at hu
    | cons c u' =>
    cases strides with
    | nil => simp at hs
    | cons st strides' =>
    show addressSpec [] (.islice ⟨.static 0, a⟩ :: rest.map _)
      (st :: strides') (c :: u') = _
    rw [addressSpec, List.headD_cons, List.tail_cons]
    rw [ih strides' u' (by simpa using hu) (by simpa using hs)]
    simp [dotStrides, sliceStartInt]

/-- C1: for an access whose indexer consists only of full-range slice terms
into an array with no block mapping, the computed address at each output
multi-index is the base pointer plus the sum over axes of the axis index
times the axis's row-major stride derived from the array's declared shape. -/
theorem fullRange_address (base : Int) (shape idx : List Nat)
    (h : validIdx idx shape = true) :
    (computePointersFromIndices base none (fullRangeIndexer shape) shape).val
      idx = base + dotStrides idx (stridesFromShape shape) := by
  have hm := computePointers_val base shape
    (shape.map fun s => .islice ⟨.static 0, s⟩) [] [] idx
    (wellFormedTerms_fullRange shape) (by simp) rfl
    (by rw [sliceSizes_fullRange]; exact h)
  rw [List.nil_append] at hm
  rw [show fullRangeIndexer shape =
    ⟨shape.map fun s => .islice ⟨.static 0, s⟩, shape, []⟩ from rfl]
  rw [hm]
  rw [addressSpec_fullRange shape _ idx (validIdx_length h)
    (stridesFromShape_length shape)]

/-- Witness for `fullRange_address`: a (2, 3) array at index (1, 2);
the address is base + 1*3 + 2*1. -/
theorem fullRange_address_witness :
    (computePointersFromIndices 100 none (fullRangeIndexer [2, 3]) [2, 3]).val
      [1, 2] = 100 + dotStrides [1, 2] (stridesFromShape [2, 3]) :=
  fullRange_address 100 [2, 3] [1, 2] (by decide)

/-! ## C6: gather terms occupy the leading output positions -/

/-- C6: for an indexer mixing gather terms with slice terms, the output
index-space is the common broadcast gather shape followed by the slice
sizes in axis order, and the computed address at output index `g ++ u`
gives every gather axis a contribution that reads only the leading
coordinates `g` while each slice axis consumes the next trailing coordinate
of `u` — so gather axes always precede slice axes in the result ordering,
regardless of their positions among the indexed axes. -/
theorem gather_leading_address (base : Int) (shape : List Nat)
    (indices : List IndexTerm) (intShape g u : List Nat)
    (hwf : wellFormedTerms intShape indices = true)
    (hlen : indices.length = shape.length)
    (_hmix : indices.any isGatherTerm = true ∧ indices.any isSliceTerm = true)
    (hg : validIdx g intShape = true)
    (hu : validIdx u (sliceSizes indices) = true) :
    NDIndexer.getIndexerShape ⟨indices, shape, intShape⟩ =
      intShape ++ sliceSizes indices ∧
    (computePointersFromIndices base none ⟨indices, shape, intShape⟩ shape).val
      (g ++ u) = base + addressSpec g indices (stridesFromShape shape) u :=
  ⟨rfl, computePointers_val base shape indices intShape g u hwf hlen hg hu⟩

/-- A gather term (an arange of values 5, 6) mixed with a bounded slice. -/
def gatherExample : List IndexTerm :=
  [.arr (Tensor.arange 5 2), .islice ⟨.static 1, 2⟩]

/-- Witness for `gather_leading_address` at gather coordinate 1 and slice
coordinate 1 of a (3, 4) array. -/
theorem gather_leading_address_witness :
    NDIndexer.getIndexerShape ⟨gatherExample, [3, 4], [2]⟩ =
      [2] ++ sliceSizes gatherExample ∧
    (computePointersFromIndices 100 none ⟨gatherExample, [3, 4], [2]⟩
      [3, 4]).val ([1] ++ [1]) =
      100 + addressSpec [1] gatherExample (stridesFromShape [3, 4]) [1] :=
  gather_leading_address 100 [3, 4] gatherExample [2] [1] [1] (by decide)
    (by decide) ⟨by decide, by decide⟩ (by decide) (by decide)

end PallasLowering
